import Mathlib

/-!
Verification of the response-normalization layer of the hvac-scanner
repository (`src/services/openai.ts` and the label-capture caller in
`src/components/CameraCapture.tsx`).

Strings are modelled as `List Char`.  The model-response text is untrusted
JSON, modelled by the inductive type `Json` below together with an executable
JSON parser (`jsonParse`) standing for the runtime's `JSON.parse`: it accepts
exactly the JSON grammar (strict, whole-input) and returns `none` on failure,
where `JSON.parse` throws `SyntaxError`.

JavaScript-semantics notes used throughout (the source is an ES module, hence
strict mode):
* property access on a non-object returns `undefined` (modelled as `none`),
  except access on `null`/`undefined` which throws `TypeError`;
* assigning a property on a primitive (number, string, boolean) throws
  `TypeError` in strict mode;
* `x || y` picks `y` exactly when `x` is falsy (`undefined`, `null`, `false`,
  `0`, `""`);
* the `=== undefined || === null` test is strict and keeps `0`.
-/

set_option maxRecDepth 16384

namespace HvacScanner

/-! ## String utilities -/

/-- JavaScript's `String.prototype.trim` whitespace, restricted to the ASCII
whitespace actually relevant here (space, tab, CR, LF); this is also exactly
the whitespace the JSON grammar allows. -/
def isWS (c : Char) : Bool := c.isWhitespace

def trimLeft (l : List Char) : List Char := l.dropWhile isWS

def trimRight (l : List Char) : List Char := (l.reverse.dropWhile isWS).reverse

/-- `content.trim()`. -/
def trim (l : List Char) : List Char := trimRight (trimLeft l)

/-- `l.startsWith(p)`. -/
def hasPrefixL (p l : List Char) : Bool := decide (l.take p.length = p)

/-- `l.endsWith(p)`. -/
def hasSuffixL (p l : List Char) : Bool := decide (l.reverse.take p.length = p.reverse)

/-- The backquote character. -/
def bq : Char := Char.ofNat 96

/-- The 7-character opening marker with language tag, from the literal in
`cleanJsonResponse`. -/
def fenceJson : List Char := [bq, bq, bq, 'j', 's', 'o', 'n']

/-- The plain triple-backquote fence marker. -/
def fence : List Char := [bq, bq, bq]

/-- `private cleanJsonResponse(content: string): string`
(src/services/openai.ts:551-570): trim; strip a leading fence marker
(`substring(7)` after the tagged marker, `substring(3)` after the bare one);
strip a trailing bare marker (`substring(0, length - 3)`); trim again. -/
def cleanJsonResponse (content : List Char) : List Char :=
  let cleaned := trim content
  let cleaned :=
    if hasPrefixL fenceJson cleaned then cleaned.drop 7
    else if hasPrefixL fence cleaned then cleaned.drop 3
    else cleaned
  let cleaned :=
    if hasSuffixL fence cleaned then cleaned.take (cleaned.length - 3)
    else cleaned
  trim cleaned

/-! ## JSON values -/

/-- Parsed JSON values (the result of `JSON.parse`).  Object entries keep
insertion order; the parser collapses duplicate keys the way a JavaScript
object literal does (first position, last value), so entry keys are unique. -/
inductive Json where
  | null
  | bool (b : Bool)
  | num (q : ℚ)
  | str (s : List Char)
  | arr (elems : List Json)
  | obj (entries : List (List Char × Json))

/-- JavaScript truthiness of a parsed JSON value. -/
def jsTruthy : Json → Bool
  | .null => false
  | .bool b => b
  | .num q => decide (q ≠ 0)
  | .str s => decide (s ≠ [])
  | .arr _ => true
  | .obj _ => true

/-- Lookup in a JavaScript object's entry list (keys are unique, see `Json`). -/
def objGet : List (List Char × Json) → List Char → Option Json
  | [], _ => none
  | (k0, v) :: rest, k => if k0 = k then some v else objGet rest k

/-- Property read `j[k]`: `some` for an own property of an object, `none`
(i.e. `undefined`) otherwise.  (Reads on `null` throw instead; the places
where that matters are modelled explicitly at the call sites.) -/
def Json.get (j : Json) (k : List Char) : Option Json :=
  match j with
  | .obj kvs => objGet kvs k
  | _ => none

/-- The entry list of an object, `[]` for any other value. -/
def Json.objEntries : Json → List (List Char × Json)
  | .obj kvs => kvs
  | _ => []

/-- Assignment `o[k] = v` on an object's entry list: overwrites in place if
the key exists, appends otherwise (JavaScript property order). -/
def insertKV (kvs : List (List Char × Json)) (k : List Char) (v : Json) :
    List (List Char × Json) :=
  if kvs.any (fun p => p.1 = k) then
    kvs.map (fun p => if p.1 = k then (k, v) else p)
  else kvs ++ [(k, v)]

/-! ## JSON parser (model of `JSON.parse`) -/

/-- JSON insignificant whitespace (identical to `isWS`). -/
def skipWs (l : List Char) : List Char := l.dropWhile isWS

/-- Longest digit run at the front. -/
def takeDigits : List Char → List Char × List Char
  | [] => ([], [])
  | c :: rest =>
    if c.isDigit then
      let p := takeDigits rest
      (c :: p.1, p.2)
    else ([], c :: rest)

def digitsToNat (ds : List Char) : Nat :=
  ds.foldl (fun a c => a * 10 + (c.toNat - 48)) 0

def hexVal (c : Char) : Option Nat :=
  if c.isDigit then some (c.toNat - 48)
  else if 'a' ≤ c ∧ c ≤ 'f' then some (c.toNat - 87)
  else if 'A' ≤ c ∧ c ≤ 'F' then some (c.toNat - 55)
  else none

/-- Single-character JSON escapes. -/
def escChar (c : Char) : Option Char :=
  match c with
  | '"' => some '"'
  | '\\' => some '\\'
  | '/' => some '/'
  | 'b' => some (Char.ofNat 8)
  | 'f' => some (Char.ofNat 12)
  | 'n' => some '\n'
  | 'r' => some '\r'
  | 't' => some '\t'
  | _ => none

/-- Parse the body of a JSON string after the opening quote; returns the
decoded characters and the rest after the closing quote. -/
def parseStringBody : List Char → Option (List Char × List Char)
  | [] => none
  | '"' :: rest => some ([], rest)
  | '\\' :: 'u' :: h1 :: h2 :: h3 :: h4 :: rest =>
    match hexVal h1, hexVal h2, hexVal h3, hexVal h4 with
    | some a, some b, some c, some d =>
      (parseStringBody rest).map
        (fun p => (Char.ofNat (((a * 16 + b) * 16 + c) * 16 + d) :: p.1, p.2))
    | _, _, _, _ => none
  | '\\' :: e :: rest =>
    match escChar e with
    | some ec => (parseStringBody rest).map (fun p => (ec :: p.1, p.2))
    | none => none
  | c :: rest =>
    if c.toNat < 32 then none
    else (parseStringBody rest).map (fun p => (c :: p.1, p.2))

/-- Optional exponent sign and mandatory digits after `e`/`E`. -/
def parseExp (l : List Char) : Option (Bool × Nat × List Char) :=
  let p :=
    match l with
    | '+' :: r => (false, r)
    | '-' :: r => (true, r)
    | _ => (false, l)
  match takeDigits p.2 with
  | ([], _) => none
  | (ds, rest) => some (p.1, digitsToNat ds, rest)

/-- JSON number grammar: `-? (0 | [1-9][0-9]*) (. [0-9]+)? ([eE][+-]?[0-9]+)?`,
evaluated exactly in `ℚ`. -/
def parseNumber (l : List Char) : Option (ℚ × List Char) :=
  let sp := match l with | '-' :: r => (true, r) | _ => (false, l)
  match takeDigits sp.2 with
  | ([], _) => none
  | (ds, l2) =>
    if ds.length ≥ 2 ∧ ds.head? = some '0' then none
    else
      let fracPart : Option (Nat × Nat × List Char) :=
        match l2 with
        | '.' :: r =>
          match takeDigits r with
          | ([], _) => none
          | (fs, l3) => some (digitsToNat (ds ++ fs), fs.length, l3)
        | _ => some (digitsToNat ds, 0, l2)
      match fracPart with
      | none => none
      | some (m, fl, l3) =>
        let expPart : Option (Bool × Nat × List Char) :=
          match l3 with
          | 'e' :: r => parseExp r
          | 'E' :: r => parseExp r
          | _ => some (false, 0, l3)
        match expPart with
        | none => none
        | some (eneg, e, l4) =>
          let nd : Nat × Nat :=
            if eneg then (m, 10 ^ (fl + e)) else (m * 10 ^ e, 10 ^ fl)
          let q := mkRat (if sp.1 then -(nd.1 : ℤ) else (nd.1 : ℤ)) nd.2
          some (q, l4)

/-- Array elements after `[` (first element's text is passed in);
`pv` parses one value. -/
def parseElemsAux (pv : List Char → Option (Json × List Char)) :
    Nat → List Char → Option (List Json × List Char)
  | 0, _ => none
  | fuel + 1, l =>
    match pv (skipWs l) with
    | none => none
    | some (v, rest) =>
      match skipWs rest with
      | ',' :: r2 => (parseElemsAux pv fuel r2).map (fun p => (v :: p.1, p.2))
      | ']' :: r2 => some ([v], r2)
      | _ => none

/-- Object members after `{` (building entries with the object-literal
duplicate-key rule via `insertKV`); `pv` parses one value. -/
def parseMembersAux (pv : List Char → Option (Json × List Char)) :
    Nat → List Char → List (List Char × Json) →
    Option (List (List Char × Json) × List Char)
  | 0, _, _ => none
  | fuel + 1, l, acc =>
    match skipWs l with
    | '"' :: r =>
      match parseStringBody r with
      | none => none
      | some (k, r2) =>
        match skipWs r2 with
        | ':' :: r3 =>
          match pv (skipWs r3) with
          | none => none
          | some (v, r4) =>
            match skipWs r4 with
            | ',' :: r5 => parseMembersAux pv fuel r5 (insertKV acc k v)
            | '}' :: r5 => some (insertKV acc k v, r5)
            | _ => none
        | _ => none
    | _ => none

/-- Parse one JSON value (no leading whitespace); fuel-indexed. -/
def parseVal : Nat → List Char → Option (Json × List Char)
  | 0, _ => none
  | fuel + 1, l =>
    match l with
    | [] => none
    | 'n' :: 'u' :: 'l' :: 'l' :: rest => some (.null, rest)
    | 't' :: 'r' :: 'u' :: 'e' :: rest => some (.bool true, rest)
    | 'f' :: 'a' :: 'l' :: 's' :: 'e' :: rest => some (.bool false, rest)
    | '"' :: rest => (parseStringBody rest).map (fun p => (.str p.1, p.2))
    | '[' :: rest =>
      match skipWs rest with
      | ']' :: r => some (.arr [], r)
      | _ => (parseElemsAux (parseVal fuel) fuel rest).map
          (fun p => (.arr p.1, p.2))
    | '{' :: rest =>
      match skipWs rest with
      | '}' :: r => some (.obj [], r)
      | _ => (parseMembersAux (parseVal fuel) fuel rest []).map
          (fun p => (.obj p.1, p.2))
    | c :: _ =>
      if c = '-' ∨ c.isDigit then (parseNumber l).map (fun p => (.num p.1, p.2))
      else none

/-- `JSON.parse`: whole-input strict parse; `none` models the thrown
`SyntaxError`. -/
def jsonParse (l : List Char) : Option Json :=
  match parseVal (2 * l.length + 2) (skipWs l) with
  | some (v, rest) => if skipWs rest = [] then some v else none
  | none => none

/-! ## Label-scan normalization (`scanLabel`, src/services/openai.ts:165-286)

Only the response-normalization part is modelled: the network call, image
encoding and wall-clock `processingTime` are I/O owned by collaborators.
`now` stands for the `new Date()` timestamps taken during normalization. -/

def kStructuredData : List Char := "structuredData".toList
def kFieldMetadata : List Char := "fieldMetadata".toList
def kConfidence : List Char := "confidence".toList
def kExtractedText : List Char := "extractedText".toList
def kSource : List Char := "source".toList
def kScanned : List Char := "scanned".toList
def kId : List Char := "id".toList
def kCreatedAt : List Char := "createdAt".toList
def kUpdatedAt : List Char := "updatedAt".toList

/-- `parsedResponse.confidence || 0.8` — JavaScript `||`, so the fallback
fires on any falsy confidence (`undefined`, `null`, and also `0`). -/
def confOr08 (conf : Option Json) : Json :=
  match conf with
  | some v => if jsTruthy v then v else .num (mkRat 4 5)
  | none => .num (mkRat 4 5)

/-- The synthesized per-field entry
`{ source: "scanned", confidence: parsedResponse.confidence || 0.8 }`. -/
def synthMetaEntry (conf : Option Json) : Json :=
  .obj [(kSource, .str kScanned), (kConfidence, confOr08 conf)]

/-- The test `value !== null && value !== undefined` (parsed JSON has no
`undefined`). -/
def isNullJson : Json → Bool
  | .null => true
  | _ => false

/-- Lines 188-199: `Object.keys(structuredData).forEach(...)` — one entry per
key whose value is not `null`/`undefined`. -/
def synthFieldMetadata (sd : List (List Char × Json)) (conf : Option Json) :
    List (List Char × Json) :=
  sd.filterMap
    (fun p => if isNullJson p.2 then none else some (p.1, synthMetaEntry conf))

/-- Lines 177-182: `if (!parsedResponse.structuredData) structuredData = {}` —
a falsy `structuredData` is replaced by `{}`.  `structuredData` is typed
`Partial<HVACEquipment>` (an object); a truthy non-object here is outside the
source's declared shape and is modelled as having no entries. -/
def normStructuredData (root : Json) : List (List Char × Json) :=
  match root.get kStructuredData with
  | some v => if jsTruthy v then v.objEntries else []
  | none => []

/-- Lines 184-199: `if (!parsedResponse.fieldMetadata)` — synthesis happens
exactly when `fieldMetadata` is falsy; a truthy `fieldMetadata` is kept
verbatim and gaps in it are NOT filled. -/
def normFieldMetadata (root : Json) : List (List Char × Json) :=
  match root.get kFieldMetadata with
  | some v =>
    if jsTruthy v then v.objEntries
    else synthFieldMetadata (normStructuredData root) (root.get kConfidence)
  | none => synthFieldMetadata (normStructuredData root) (root.get kConfidence)

/-- Lines 201-206: `if (confidence === undefined || confidence === null)
confidence = 0.6` — strict test, `0` is kept. -/
def normConfidence (root : Json) : Json :=
  match root.get kConfidence with
  | none => .num (mkRat 3 5)
  | some .null => .num (mkRat 3 5)
  | some v => v

/-- A value stored in the constructed `extractedData`: either a JSON value
from the response or a `Date` created at normalization time. -/
inductive JsVal where
  | fromJson (j : Json)
  | date (t : ℤ)

/-- The object literal of lines 265-271:
`{ id: "", createdAt: new Date(), updatedAt: new Date(),
   ...parsedResponse.structuredData, fieldMetadata }`.
The spread comes after the three fixed properties, so a `structuredData` key
named `id`/`createdAt`/`updatedAt` overwrites the placeholder; `fieldMetadata`
is written last.  `fields` holds the spread `structuredData` entries. -/
structure ExtractedData where
  id : JsVal
  createdAt : JsVal
  updatedAt : JsVal
  fields : List (List Char × Json)
  fieldMetadata : List (List Char × Json)

def mkExtractedData (root : Json) (now : ℤ) : ExtractedData :=
  let sd := normStructuredData root
  { id := match objGet sd kId with
      | some v => .fromJson v
      | none => .fromJson (.str [])
    createdAt := match objGet sd kCreatedAt with
      | some v => .fromJson v
      | none => .date now
    updatedAt := match objGet sd kUpdatedAt with
      | some v => .fromJson v
      | none => .date now
    fields := sd
    fieldMetadata := normFieldMetadata root }

/-- The returned `LabelScanResult` (processingTime, pure I/O timing, is not
modelled).  `rawText := parsedResponse.extractedText` is copied with no
defaulting, so it is `none` (`undefined`) when the field is absent. -/
structure LabelScanResult where
  confidence : Json
  extractedData : ExtractedData
  rawText : Option Json

/-- Lines 177-278 after a successful parse of an object/array root. -/
def normalizeVision (root : Json) (now : ℤ) : LabelScanResult :=
  { confidence := normConfidence root
    extractedData := mkExtractedData root now
    rawText := root.get kExtractedText }

/-- The two distinct parse-failure errors thrown by `scanLabel`; both carry
`cleanedContent.substring(0, 300)` in their message. -/
inductive ScanError where
  | noJsonFound (excerpt : List Char)
  | unparsable (excerpt : List Char)

def ScanError.excerpt : ScanError → List Char
  | .noJsonFound e => e
  | .unparsable e => e

/-- The regex fallback `cleanedContent.match(/\{[\s\S]*\}/)`: the substring
from the first `{` to the last `}`, when the last `}` comes after the
first `{`. -/
def braceSubstring (l : List Char) : Option (List Char) :=
  match l.findIdx? (fun c => c = '{') with
  | none => none
  | some i =>
    match l.reverse.findIdx? (fun c => c = '}') with
    | none => none
    | some ri =>
      let j := l.length - 1 - ri
      if i < j then some ((l.drop i).take (j - i + 1)) else none

/-- Values whose properties can be assigned without a strict-mode
`TypeError`: objects and arrays.  A top-level `null` throws on the very first
property read, and a top-level primitive throws on
`parsedResponse.structuredData = {}`; either `TypeError` is caught by the
same `catch (parseError)` that catches `SyntaxError`, so such roots take the
regex-fallback path. -/
def jsObjLike : Json → Bool
  | .obj _ => true
  | .arr _ => true
  | _ => false

/-- The `catch (parseError)` block, lines 207-261: regex extraction and second
parse; the duplicated normalization is `normalizeVision` again.  (A second
parse that succeeds always yields an object, since the matched substring
starts with `{`; the guard mirrors the inner `catch (secondParseError)`.) -/
def scanFallback (cleaned : List Char) (now : ℤ) :
    Except ScanError LabelScanResult :=
  match braceSubstring cleaned with
  | none => .error (.noJsonFound (cleaned.take 300))
  | some sub =>
    match jsonParse sub with
    | some root =>
      if jsObjLike root then .ok (normalizeVision root now)
      else .error (.unparsable (cleaned.take 300))
    | none => .error (.unparsable (cleaned.take 300))

/-- `scanLabel` normalization, lines 170-278, for response text `content`. -/
def scanLabel (content : List Char) (now : ℤ) :
    Except ScanError LabelScanResult :=
  let cleaned := cleanJsonResponse content
  match jsonParse cleaned with
  | some root =>
    if jsObjLike root then .ok (normalizeVision root now)
    else scanFallback cleaned now
  | none => scanFallback cleaned now

def isScanError : Except ScanError LabelScanResult → Bool
  | .error _ => true
  | .ok _ => false

/-- First-stage recovery: the cleaned text parses and survives the
normalization block (object or array root). -/
def recoverObj (l : List Char) : Option Json :=
  match jsonParse l with
  | some r => if jsObjLike r then some r else none
  | none => none

/-- Second-stage recovery through the brace-extraction fallback. -/
def fallbackRecover (l : List Char) : Option Json :=
  match braceSubstring l with
  | some sub => recoverObj sub
  | none => none

/-! ## Equipment analysis (`analyzeEquipment`, src/services/openai.ts:288-399)

After `cleanJsonResponse` there is a single bare `JSON.parse` — no regex
fallback — and the result's fields are copied with no defaulting. -/

def kEquipmentType : List Char := "equipmentType".toList
def kEquipmentDescription : List Char := "equipmentDescription".toList
def kFailures : List Char := "failures".toList
def kCondition : List Char := "condition".toList
def kUrgency : List Char := "urgency".toList
def kRecommendations : List Char := "recommendations".toList

/-- The returned `InspectionResult` (processingTime not modelled); each field
is the raw property read, `none` when absent. -/
structure InspectionResult where
  equipmentType : Option Json
  equipmentDescription : Option Json
  failures : Option Json
  overallCondition : Option Json
  maintenanceUrgency : Option Json
  generalRecommendations : Option Json

/-- Any throw inside `analyzeEquipment` is wrapped by the outer catch into
`AppError("PROCESSING_ERROR", "Error analyzing equipment")`. -/
inductive AnalyzeError where
  | processingError

/-- Lines 377-391.  A root of `null` throws `TypeError` on the first property
read and also ends in the processing error. -/
def analyzeEquipment (content : List Char) :
    Except AnalyzeError InspectionResult :=
  match jsonParse (cleanJsonResponse content) with
  | none => .error .processingError
  | some root =>
    if isNullJson root then .error .processingError
    else
      .ok { equipmentType := root.get kEquipmentType
            equipmentDescription := root.get kEquipmentDescription
            failures := root.get kFailures
            overallCondition := root.get kCondition
            maintenanceUrgency := root.get kUrgency
            generalRecommendations := root.get kRecommendations }

def isAnalyzeError : Except AnalyzeError InspectionResult → Bool
  | .error _ => true
  | .ok _ => false

/-! ## Label-capture caller (`processLabelImage`,
src/components/CameraCapture.tsx) -/

/-- `Math.round(x)` = `⌊x + 1/2⌋`, computed on the reduced fraction:
`⌊(2·num + den) / (2·den)⌋` with floor division. -/
def jsRound (q : ℚ) : ℤ := Int.fdiv (2 * q.num + (q.den : ℤ)) (2 * (q.den : ℤ))

/-- `q * 100` as a rational. -/
def mul100 (q : ℚ) : ℚ := mkRat (q.num * 100) q.den

/-- `result.confidence > 0.3`; `confidence` is a number by
`LabelScanResult`'s declaration. -/
def confAbove (v : Json) (x : ℚ) : Bool :=
  match v with
  | .num q => decide (q > x)
  | _ => false

/-- `Math.round(result.confidence * 100)`, shown in the low-confidence
message. -/
def roundPercent (v : Json) : ℤ :=
  match v with
  | .num q => jsRound (mul100 q)
  | _ => 0

/-- Outcome of `processLabelImage`: forward `result.extractedData` to
`onCapture` (the validation-form flow), or set an error message. -/
inductive CaptureOutcome where
  | forwarded (d : ExtractedData)
  | lowConfidence (percent : ℤ)
  | processingError

/-- `processLabelImage`: on a scan error set the processing-error message;
otherwise forward exactly when `result.confidence > 0.3`, else show the
low-confidence message with the rounded percentage. -/
def processLabelImage (scan : Except ScanError LabelScanResult) :
    CaptureOutcome :=
  match scan with
  | .error _ => .processingError
  | .ok result =>
    if confAbove result.confidence (mkRat 3 10) then
      .forwarded result.extractedData
    else .lowConfidence (roundPercent result.confidence)

/-! ## Concrete response texts used in witnesses and counterexamples -/

def sdBrandModel : List (List Char × Json) :=
  [("brand".toList, .str "X".toList), ("model".toList, Json.null)]

def sdBrand : List (List Char × Json) := [("brand".toList, .str "X".toList)]

def c1okIn : List Char :=
  "\x7b\"structuredData\":\x7b\"brand\":\"X\",\"model\":null\x7d,\"confidence\":0.9\x7d".toList

def c1okRoot : Json :=
  .obj [(kStructuredData, .obj sdBrandModel), (kConfidence, .num (mkRat 9 10))]

def c1cexIn : List Char :=
  "\x7b\"structuredData\":\x7b\"brand\":\"X\"\x7d,\"confidence\":0\x7d".toList

def c2cexIn : List Char := "5".toList

def c2wIn : List Char := "not json at all".toList

def c2wIn2 : List Char :=
  "Some text before \x7b\"extractedText\":\"T\",\"structuredData\":\x7b\x7d\x7d trailing".toList

def c3cexIn : List Char :=
  "\x7b\"structuredData\":\x7b\"brand\":\"Carrier\",\"model\":\"X\"\x7d,\"fieldMetadata\":\x7b\"brand\":\x7b\"source\":\"scanned\",\"confidence\":0.9\x7d\x7d,\"confidence\":0.9\x7d".toList

def c3wIn : List Char :=
  "\x7b\"structuredData\":\x7b\"brand\":\"X\",\"model\":null\x7d,\"confidence\":0.5\x7d".toList

def c3wRoot : Json :=
  .obj [(kStructuredData, .obj sdBrandModel), (kConfidence, .num (mkRat 1 2))]

def c5wIn : List Char := "\x7b\"structuredData\":\x7b\"brand\":\"X\"\x7d\x7d".toList

def c5wRoot : Json := .obj [(kStructuredData, .obj sdBrand)]

def metaAi : Json :=
  .obj [(kSource, .str "ai_inferred".toList), (kConfidence, .num (mkRat 2 5))]

def c6wIn : List Char :=
  "\x7b\"structuredData\":\x7b\"brand\":\"X\"\x7d,\"fieldMetadata\":\x7b\"brand\":\x7b\"source\":\"ai_inferred\",\"confidence\":0.4\x7d\x7d\x7d".toList

def c6wRoot : Json :=
  .obj [(kStructuredData, .obj sdBrand),
        (kFieldMetadata, .obj [("brand".toList, metaAi)])]

def c7cexIn : List Char :=
  "Some text before \x7b\"equipmentType\":\"RTU\",\"failures\":[],\"condition\":\"good\",\"urgency\":\"none\",\"recommendations\":[]\x7d trailing".toList

def c7wIn : List Char := "\x7b\"equipmentType\":\"RTU\"\x7d".toList

def c8cexIn : List Char := "\x7b\x7d".toList

def c8wIn : List Char := "\x7b\"equipmentDescription\":\"rooftop unit\"\x7d".toList

def c8wRoot : Json := .obj [(kEquipmentDescription, .str "rooftop unit".toList)]

def c9cexIn : List Char :=
  "\x7b\"structuredData\":\x7b\"id\":\"evil\"\x7d,\"confidence\":0.9\x7d".toList

def c9wIn : List Char :=
  "\x7b\"extractedText\":\"LINE1\",\"structuredData\":\x7b\"brand\":\"X\"\x7d,\"confidence\":0.9\x7d".toList

def c9wRoot : Json :=
  .obj [(kExtractedText, .str "LINE1".toList),
        (kStructuredData, .obj sdBrand), (kConfidence, .num (mkRat 9 10))]

/-- An empty extracted-data value, used to build concrete scan results. -/
def edEmpty : ExtractedData :=
  { id := .fromJson (.str []), createdAt := .date 0, updatedAt := .date 0
    fields := [], fieldMetadata := [] }

def rConf30 : LabelScanResult :=
  { confidence := .num (mkRat 3 10), extractedData := edEmpty, rawText := none }

def rConf31 : LabelScanResult :=
  { confidence := .num (mkRat 31 100), extractedData := edEmpty, rawText := none }

/-! ## Helper lemmas: trimming -/

theorem isWS_nl : isWS '\n' = true := by decide

theorem trimLeft_cons_of_not_ws {a : Char} {l : List Char} (h : isWS a = false) :
    trimLeft (a :: l) = a :: l := by
  simp [trimLeft, List.dropWhile_cons, h]

theorem trimLeft_eq_of_head {l : List Char} {a : Char} (hh : l.head? = some a)
    (h : isWS a = false) : trimLeft l = l := by
  cases l with
  | nil => rfl
  | cons x xs =>
    simp only [List.head?_cons, Option.some.injEq] at hh
    subst hh
    exact trimLeft_cons_of_not_ws h

theorem trimLeft_ws_append {w l : List Char} (hw : ∀ a ∈ w, isWS a = true) :
    trimLeft (w ++ l) = trimLeft l := by
  induction w with
  | nil => rfl
  | cons x xs ih =>
    have hx : isWS x = true := hw x (by simp)
    have ihh := ih (fun a ha => hw a (List.mem_cons_of_mem _ ha))
    simp only [List.cons_append, trimLeft, List.dropWhile_cons, hx, if_true]
    exact ihh

theorem trimRight_eq_of_getLast {l : List Char} {b : Char}
    (hl : l.getLast? = some b) (h : isWS b = false) : trimRight l = l := by
  have hh : l.reverse.head? = some b := by rw [List.head?_reverse]; exact hl
  have : trimLeft l.reverse = l.reverse := trimLeft_eq_of_head hh h
  unfold trimRight
  rw [show l.reverse.dropWhile isWS = l.reverse from this, List.reverse_reverse]

theorem trimRight_append_ws {l w : List Char} (hw : ∀ a ∈ w, isWS a = true) :
    trimRight (l ++ w) = trimRight l := by
  unfold trimRight
  rw [List.reverse_append]
  have : trimLeft (w.reverse ++ l.reverse) = trimLeft l.reverse :=
    trimLeft_ws_append (fun a ha => hw a (List.mem_reverse.mp ha))
  rw [show (w.reverse ++ l.reverse).dropWhile isWS = l.reverse.dropWhile isWS from this]

theorem trim_eq_of_edges {l : List Char} {a b : Char} (hh : l.head? = some a)
    (ha : isWS a = false) (hl : l.getLast? = some b) (hb : isWS b = false) :
    trim l = l := by
  unfold trim
  rw [trimLeft_eq_of_head hh ha, trimRight_eq_of_getLast hl hb]

theorem head?_append_of_head {c Y : List Char} {a : Char} (h : c.head? = some a) :
    (c ++ Y).head? = some a := by
  cases c with
  | nil => simp at h
  | cons x xs => simpa using h

theorem getLast?_append_of_getLast {Y c : List Char} {b : Char}
    (h : c.getLast? = some b) : (Y ++ c).getLast? = some b := by
  rw [← List.head?_reverse] at h ⊢
  rw [List.reverse_append]
  exact head?_append_of_head h

theorem trim_nl_wrap {c : List Char} {a b : Char} (hh : c.head? = some a)
    (ha : isWS a = false) (hl : c.getLast? = some b) (hb : isWS b = false) :
    trim ('\n' :: (c ++ ['\n'])) = c := by
  unfold trim
  have h1 : trimLeft ('\n' :: (c ++ ['\n'])) = trimLeft (c ++ ['\n']) := by
    simp [trimLeft, List.dropWhile_cons, isWS_nl]
  have h2 : trimLeft (c ++ ['\n']) = c ++ ['\n'] :=
    trimLeft_eq_of_head (head?_append_of_head hh) ha
  have h3 : trimRight (c ++ ['\n']) = trimRight c :=
    trimRight_append_ws (by intro x hx; simp at hx; simp [hx]; rfl)
  rw [h1, h2, h3, trimRight_eq_of_getLast hl hb]

theorem trim_nl_cons {c : List Char} {a b : Char} (hh : c.head? = some a)
    (ha : isWS a = false) (hl : c.getLast? = some b) (hb : isWS b = false) :
    trim ('\n' :: c) = c := by
  unfold trim
  have h1 : trimLeft ('\n' :: c) = trimLeft c := by
    simp [trimLeft, List.dropWhile_cons, isWS_nl]
  rw [h1, trimLeft_eq_of_head hh ha, trimRight_eq_of_getLast hl hb]

theorem trim_ws_wrap {l wsl wsr : List Char} {a b : Char}
    (hwl : ∀ x ∈ wsl, isWS x = true) (hwr : ∀ x ∈ wsr, isWS x = true)
    (hh : l.head? = some a) (ha : isWS a = false)
    (hl : l.getLast? = some b) (hb : isWS b = false) :
    trim (wsl ++ l ++ wsr) = l := by
  have e : wsl ++ l ++ wsr = wsl ++ (l ++ wsr) := List.append_assoc _ _ _
  unfold trim
  rw [e, trimLeft_ws_append hwl,
    trimLeft_eq_of_head (head?_append_of_head hh) ha,
    trimRight_append_ws hwr, trimRight_eq_of_getLast hl hb]

/-! ## Helper lemmas: fence markers -/

theorem hasPrefixL_append_self (p l : List Char) : hasPrefixL p (p ++ l) = true := by
  simp [hasPrefixL, List.take_left]

theorem hasPrefixL_fenceJson_of_fence (T : List Char) :
    hasPrefixL fenceJson (fence ++ '\n' :: T) = false := by
  simp only [hasPrefixL, fenceJson, fence, decide_eq_false_iff_not]
  intro h
  simp only [List.length_cons, List.length_nil, List.cons_append, List.nil_append,
    List.take_succ_cons] at h
  have h4 := (List.cons.inj (List.cons.inj (List.cons.inj h).2).2).2
  exact absurd (List.cons.inj h4).1 (by decide)

theorem hasPrefixL_cons_of_ne_bq {p : List Char} {a : Char} (l : List Char)
    (hp : p.head? = some bq) (ha : a ≠ bq) : hasPrefixL p (a :: l) = false := by
  cases p with
  | nil => simp at hp
  | cons x xs =>
    simp only [List.head?_cons, Option.some.injEq] at hp
    subst hp
    simp only [hasPrefixL, List.length_cons, List.take_succ_cons,
      decide_eq_false_iff_not]
    intro h
    exact ha (List.cons.inj h).1

theorem hasSuffixL_append_self (p l : List Char) : hasSuffixL p (l ++ p) = true := by
  have h : (l ++ p).reverse.take p.length = p.reverse := by
    rw [List.reverse_append, List.take_left' (by simp)]
  simp [hasSuffixL, h]

theorem hasSuffixL_fence_of_getLast_ne {l : List Char} {b : Char}
    (hb : l.getLast? = some b) (hne : b ≠ bq) : hasSuffixL fence l = false := by
  have hh : l.reverse.head? = some b := by rw [List.head?_reverse]; exact hb
  cases hr : l.reverse with
  | nil => rw [hr] at hh; simp at hh
  | cons x xs =>
    rw [hr] at hh
    simp only [List.head?_cons, Option.some.injEq] at hh
    subst hh
    simp only [hasSuffixL, fence, hr, List.length_cons, List.length_nil,
      List.take_succ_cons, decide_eq_false_iff_not]
    intro h
    exact hne (List.cons.inj h).1

theorem take_len_sub_fence (Y : List Char) :
    (Y ++ fence).take ((Y ++ fence).length - 3) = Y := by
  have hl : (Y ++ fence).length - 3 = Y.length := by simp [fence]
  rw [hl, List.take_left]

theorem drop_fenceJson (T : List Char) : (fenceJson ++ T).drop 7 = T :=
  List.drop_left' (by rfl)

theorem drop_fence (T : List Char) : (fence ++ T).drop 3 = T :=
  List.drop_left' (by rfl)

theorem isWS_bq : isWS bq = false := by decide

theorem head?_fenceJson : fenceJson.head? = some bq := rfl

theorem head?_fence : fence.head? = some bq := rfl

theorem getLast?_fence (Y : List Char) : (Y ++ fence).getLast? = some bq :=
  getLast?_append_of_getLast (by rfl)

/-! ## Helper lemmas: object lookup and provenance synthesis -/

theorem objGet_cons_self {k : List Char} {v : Json}
    {rest : List (List Char × Json)} : objGet ((k, v) :: rest) k = some v := by
  simp [objGet]

theorem objGet_cons_ne {k0 k : List Char} {v : Json}
    {rest : List (List Char × Json)} (h : k0 ≠ k) :
    objGet ((k0, v) :: rest) k = objGet rest k := by
  simp [objGet, h]

theorem synth_cons_null {k0 : List Char} {v : Json}
    {rest : List (List Char × Json)} {conf : Option Json}
    (hn : isNullJson v = true) :
    synthFieldMetadata ((k0, v) :: rest) conf = synthFieldMetadata rest conf := by
  simp [synthFieldMetadata, List.filterMap_cons, hn]

theorem synth_cons_notnull {k0 : List Char} {v : Json}
    {rest : List (List Char × Json)} {conf : Option Json}
    (hn : isNullJson v = false) :
    synthFieldMetadata ((k0, v) :: rest) conf =
      (k0, synthMetaEntry conf) :: synthFieldMetadata rest conf := by
  simp [synthFieldMetadata, List.filterMap_cons, hn]

theorem objGet_eq_none_of_not_mem {sd : List (List Char × Json)} {k : List Char}
    (h : k ∉ sd.map Prod.fst) : objGet sd k = none := by
  induction sd with
  | nil => rfl
  | cons p rest ih =>
    obtain ⟨p1, p2⟩ := p
    simp only [List.map_cons, List.mem_cons, not_or] at h
    rw [objGet_cons_ne (fun hk => h.1 hk.symm), ih h.2]

theorem mem_keys_synth {sd : List (List Char × Json)} {conf : Option Json}
    {k : List Char} (h : k ∈ (synthFieldMetadata sd conf).map Prod.fst) :
    k ∈ sd.map Prod.fst := by
  induction sd with
  | nil => simp [synthFieldMetadata] at h
  | cons p rest ih =>
    obtain ⟨p1, p2⟩ := p
    cases hn : isNullJson p2 with
    | true =>
      rw [synth_cons_null hn] at h
      exact List.mem_cons_of_mem _ (ih h)
    | false =>
      rw [synth_cons_notnull hn] at h
      simp only [List.map_cons, List.mem_cons] at h ⊢
      rcases h with h | h
      · exact Or.inl h
      · exact Or.inr (ih h)

theorem objGet_synth_eq {sd : List (List Char × Json)} {conf : Option Json}
    (hnd : (sd.map Prod.fst).Nodup) (k : List Char) :
    objGet (synthFieldMetadata sd conf) k =
      match objGet sd k with
      | some v => if isNullJson v then none else some (synthMetaEntry conf)
      | none => none := by
  induction sd with
  | nil => rfl
  | cons p rest ih =>
    obtain ⟨p1, p2⟩ := p
    simp only [List.map_cons, List.nodup_cons] at hnd
    by_cases hk : p1 = k
    · subst hk
      cases hn : isNullJson p2 with
      | true =>
        rw [synth_cons_null hn, objGet_cons_self,
          objGet_eq_none_of_not_mem (fun hm => hnd.1 (mem_keys_synth hm))]
        simp [hn]
      | false =>
        rw [synth_cons_notnull hn, objGet_cons_self, objGet_cons_self]
        simp [hn]
    · have step : objGet ((p1, p2) :: rest) k = objGet rest k := objGet_cons_ne hk
      cases hn : isNullJson p2 with
      | true => rw [synth_cons_null hn, step, ih hnd.2]
      | false => rw [synth_cons_notnull hn, objGet_cons_ne hk, step, ih hnd.2]

theorem objGet_synth_of_get {sd : List (List Char × Json)} {conf : Option Json}
    {k : List Char} {v : Json} (h : objGet sd k = some v)
    (hv : isNullJson v = false) :
    objGet (synthFieldMetadata sd conf) k = some (synthMetaEntry conf) := by
  induction sd with
  | nil => simp [objGet] at h
  | cons p rest ih =>
    obtain ⟨p1, p2⟩ := p
    by_cases hk : p1 = k
    · subst hk
      rw [objGet_cons_self] at h
      have hv2 : p2 = v := Option.some.inj h
      subst hv2
      rw [synth_cons_notnull hv, objGet_cons_self]
    · rw [objGet_cons_ne hk] at h
      cases hn : isNullJson p2 with
      | true => rw [synth_cons_null hn]; exact ih h
      | false => rw [synth_cons_notnull hn, objGet_cons_ne hk]; exact ih h

theorem objGet_synth_mem {sd : List (List Char × Json)} {conf : Option Json}
    {k : List Char} {m : Json}
    (h : objGet (synthFieldMetadata sd conf) k = some m) :
    m = synthMetaEntry conf := by
  induction sd with
  | nil => simp [synthFieldMetadata, objGet] at h
  | cons p rest ih =>
    obtain ⟨p1, p2⟩ := p
    cases hn : isNullJson p2 with
    | true =>
      rw [synth_cons_null hn] at h
      exact ih h
    | false =>
      rw [synth_cons_notnull hn] at h
      by_cases hk : p1 = k
      · subst hk
        rw [objGet_cons_self] at h
        exact (Option.some.inj h).symm
      · rw [objGet_cons_ne hk] at h
        exact ih h

theorem Json.get_some_obj {j : Json} {k : List Char} {v : Json}
    (h : j.get k = some v) : ∃ kvs, j = .obj kvs := by
  cases j with
  | obj kvs => exact ⟨kvs, rfl⟩
  | null => simp [Json.get] at h
  | bool b => simp [Json.get] at h
  | num q => simp [Json.get] at h
  | str s => simp [Json.get] at h
  | arr xs => simp [Json.get] at h

/-! ## Claim C4: code-fence stripping -/

/-- C4, counterexample: stripping is NOT language-tag-agnostic for tags other
than `json`.  For content `{}` and language tag `ts`, stripping the tagged
fence leaves the tag in the output, while stripping the untagged fence yields
the content; the two results differ. -/
theorem c4_counterexample :
    cleanJsonResponse ("```ts\n\x7b\x7d\n```".toList) = "ts\n\x7b\x7d".toList ∧
    cleanJsonResponse ("```\n\x7b\x7d\n```".toList) = "\x7b\x7d".toList ∧
    "ts\n\x7b\x7d".toList ≠ "\x7b\x7d".toList := by
  refine ⟨rfl, rfl, ?_⟩
  decide

/-- C4 (amended): the `json` language tag is the only tag recognized, and for
it tagged and untagged fences strip identically: for any content `c` that is
trimmed and does not begin or end with a backquote, stripping the
`json`-tagged fence, the untagged fence, an opening-only fence, a
closing-only fence, or no fence at all, each yield `c`, and surrounding
whitespace around a fenced input is trimmed away. -/
theorem c4_amended (c wsl wsr : List Char) (a b : Char)
    (hh : c.head? = some a) (ha : isWS a = false) (habq : a ≠ bq)
    (hl : c.getLast? = some b) (hb : isWS b = false) (hbbq : b ≠ bq)
    (hwl : ∀ x ∈ wsl, isWS x = true) (hwr : ∀ x ∈ wsr, isWS x = true) :
    cleanJsonResponse (wsl ++ (fenceJson ++ '\n' :: (c ++ '\n' :: fence)) ++ wsr) = c ∧
    cleanJsonResponse (fenceJson ++ '\n' :: (c ++ '\n' :: fence)) = c ∧
    cleanJsonResponse (fence ++ '\n' :: (c ++ '\n' :: fence)) = c ∧
    cleanJsonResponse (fenceJson ++ '\n' :: c) = c ∧
    cleanJsonResponse (c ++ '\n' :: fence) = c ∧
    cleanJsonResponse c = c := by
  have hfneq : ¬(false = true) := by decide
  have hcne : c ≠ [] := by
    intro hc
    rw [hc] at hh
    simp at hh
  obtain ⟨x, xs, hx⟩ : ∃ x xs, c = x :: xs := by
    cases c with
    | nil => exact absurd rfl hcne
    | cons x xs => exact ⟨x, xs, rfl⟩
  have hxa : x = a := by rw [hx] at hh; simpa using hh
  have hshape : '\n' :: (c ++ '\n' :: fence) = ('\n' :: (c ++ ['\n'])) ++ fence := by
    simp
  have hXlast : ('\n' :: (c ++ '\n' :: fence)).getLast? = some bq := by
    rw [hshape]; exact getLast?_fence _
  have hsufX : hasSuffixL fence ('\n' :: (c ++ '\n' :: fence)) = true := by
    rw [hshape]; exact hasSuffixL_append_self _ _
  have htailX : ('\n' :: (c ++ '\n' :: fence)).take
      (('\n' :: (c ++ '\n' :: fence)).length - 3) = '\n' :: (c ++ ['\n']) := by
    rw [hshape]; exact take_len_sub_fence _
  have htrimtail : trim ('\n' :: (c ++ ['\n'])) = c := trim_nl_wrap hh ha hl hb
  have hnlc : ('\n' :: c).getLast? = some b := by
    rw [show ('\n' :: c) = ['\n'] ++ c from rfl]
    exact getLast?_append_of_getLast hl
  refine ⟨?_, ?_, ?_, ?_, ?_, ?_⟩
  · -- whitespace-wrapped `json`-tagged full fence
    have e1 : trim (wsl ++ (fenceJson ++ '\n' :: (c ++ '\n' :: fence)) ++ wsr) =
        fenceJson ++ '\n' :: (c ++ '\n' :: fence) :=
      trim_ws_wrap hwl hwr (head?_append_of_head head?_fenceJson) isWS_bq
        (getLast?_append_of_getLast hXlast) isWS_bq
    simp only [cleanJsonResponse]
    rw [e1, hasPrefixL_append_self, if_pos rfl, drop_fenceJson, hsufX,
      if_pos rfl, htailX, htrimtail]
  · -- `json`-tagged full fence
    have e1 : trim (fenceJson ++ '\n' :: (c ++ '\n' :: fence)) =
        fenceJson ++ '\n' :: (c ++ '\n' :: fence) :=
      trim_eq_of_edges (head?_append_of_head head?_fenceJson) isWS_bq
        (getLast?_append_of_getLast hXlast) isWS_bq
    simp only [cleanJsonResponse]
    rw [e1, hasPrefixL_append_self, if_pos rfl, drop_fenceJson, hsufX,
      if_pos rfl, htailX, htrimtail]
  · -- untagged full fence
    have e1 : trim (fence ++ '\n' :: (c ++ '\n' :: fence)) =
        fence ++ '\n' :: (c ++ '\n' :: fence) :=
      trim_eq_of_edges (head?_append_of_head head?_fence) isWS_bq
        (getLast?_append_of_getLast hXlast) isWS_bq
    simp only [cleanJsonResponse]
    rw [e1, hasPrefixL_fenceJson_of_fence, if_neg hfneq,
      hasPrefixL_append_self, if_pos rfl, drop_fence, hsufX, if_pos rfl,
      htailX, htrimtail]
  · -- opening fence only
    have e1 : trim (fenceJson ++ '\n' :: c) = fenceJson ++ '\n' :: c :=
      trim_eq_of_edges (head?_append_of_head head?_fenceJson) isWS_bq
        (getLast?_append_of_getLast hnlc) hb
    have hnosuf : hasSuffixL fence ('\n' :: c) = false :=
      hasSuffixL_fence_of_getLast_ne hnlc hbbq
    simp only [cleanJsonResponse]
    rw [e1, hasPrefixL_append_self, if_pos rfl, drop_fenceJson, hnosuf,
      if_neg hfneq]
    exact trim_nl_cons hh ha hl hb
  · -- closing fence only
    have hI : c ++ '\n' :: fence = (c ++ ['\n']) ++ fence := by simp
    have e1 : trim (c ++ '\n' :: fence) = c ++ '\n' :: fence := by
      refine trim_eq_of_edges (head?_append_of_head hh) ha ?_ isWS_bq
      rw [hI]; exact getLast?_fence _
    have hnp1 : hasPrefixL fenceJson (c ++ '\n' :: fence) = false := by
      rw [hx, List.cons_append]
      exact hasPrefixL_cons_of_ne_bq _ head?_fenceJson (hxa ▸ habq)
    have hnp2 : hasPrefixL fence (c ++ '\n' :: fence) = false := by
      rw [hx, List.cons_append]
      exact hasPrefixL_cons_of_ne_bq _ head?_fence (hxa ▸ habq)
    have hsuf2 : hasSuffixL fence (c ++ '\n' :: fence) = true := by
      rw [hI]; exact hasSuffixL_append_self _ _
    have htake : (c ++ '\n' :: fence).take ((c ++ '\n' :: fence).length - 3) =
        c ++ ['\n'] := by
      rw [hI]; exact take_len_sub_fence _
    have hfin : trim (c ++ ['\n']) = c := by
      unfold trim
      rw [trimLeft_eq_of_head (head?_append_of_head hh) ha,
        trimRight_append_ws (by intro y hy; simp at hy; subst hy; rfl),
        trimRight_eq_of_getLast hl hb]
    simp only [cleanJsonResponse]
    rw [e1, hnp1, if_neg hfneq, hnp2, if_neg hfneq, hsuf2, if_pos rfl, htake,
      hfin]
  · -- no fence at all
    have e1 : trim c = c := trim_eq_of_edges hh ha hl hb
    have hnp1 : hasPrefixL fenceJson c = false := by
      rw [hx]; exact hasPrefixL_cons_of_ne_bq _ head?_fenceJson (hxa ▸ habq)
    have hnp2 : hasPrefixL fence c = false := by
      rw [hx]; exact hasPrefixL_cons_of_ne_bq _ head?_fence (hxa ▸ habq)
    have hns : hasSuffixL fence c = false := hasSuffixL_fence_of_getLast_ne hl hbbq
    simp only [cleanJsonResponse]
    rw [e1, hnp1, if_neg hfneq, hnp2, if_neg hfneq, hns, if_neg hfneq]
    exact e1

/-- C4, witness: the amended fence properties evaluated at content `x` with
one space of surrounding whitespace. -/
theorem c4_witness :
    cleanJsonResponse ([' '] ++ (fenceJson ++ '\n' :: ("x".toList ++ '\n' :: fence)) ++ [' ']) = "x".toList ∧
    cleanJsonResponse (fenceJson ++ '\n' :: ("x".toList ++ '\n' :: fence)) = "x".toList ∧
    cleanJsonResponse (fence ++ '\n' :: ("x".toList ++ '\n' :: fence)) = "x".toList := by
  have h := c4_amended "x".toList [' '] [' '] 'x' 'x' rfl rfl (by decide) rfl rfl
    (by decide) (by decide) (by decide)
  exact ⟨h.1, h.2.1, h.2.2.1⟩

/-! ## Helper lemmas: normalization plumbing -/

theorem isNullJson_eq_false {j : Json} : isNullJson j = false ↔ j ≠ Json.null := by
  cases j <;> simp [isNullJson]

theorem jsObjLike_of_get {j : Json} {k : List Char} {v : Json}
    (h : j.get k = some v) : jsObjLike j = true := by
  obtain ⟨kvs, rfl⟩ := Json.get_some_obj h
  rfl

theorem scanLabel_ok_of_parse {content : List Char} {root : Json} {now : ℤ}
    (hp : jsonParse (cleanJsonResponse content) = some root)
    (hobj : jsObjLike root = true) :
    scanLabel content now = .ok (normalizeVision root now) := by
  simp [scanLabel, hp, hobj]

theorem normSD_of_get {root : Json} {sd : List (List Char × Json)}
    (h : root.get kStructuredData = some (.obj sd)) :
    normStructuredData root = sd := by
  simp [normStructuredData, h, jsTruthy, Json.objEntries]

theorem normFM_of_absent {root : Json} (h : root.get kFieldMetadata = none) :
    normFieldMetadata root =
      synthFieldMetadata (normStructuredData root) (root.get kConfidence) := by
  simp [normFieldMetadata, h]

theorem normFM_of_falsy {root : Json} {v : Json}
    (h : root.get kFieldMetadata = some v) (hv : jsTruthy v = false) :
    normFieldMetadata root =
      synthFieldMetadata (normStructuredData root) (root.get kConfidence) := by
  simp [normFieldMetadata, h, hv]

theorem normFM_of_obj {root : Json} {kvs : List (List Char × Json)}
    (h : root.get kFieldMetadata = some (.obj kvs)) :
    normFieldMetadata root = kvs := by
  simp [normFieldMetadata, h, jsTruthy, Json.objEntries]

theorem synthMetaEntry_get_source (conf : Option Json) :
    (synthMetaEntry conf).get kSource = some (.str kScanned) := by
  simp [synthMetaEntry, Json.get, objGet]

theorem synthMetaEntry_get_conf (conf : Option Json) :
    (synthMetaEntry conf).get kConfidence = some (confOr08 conf) := by
  have hne : kSource ≠ kConfidence := by decide
  simp [synthMetaEntry, Json.get, objGet, hne]

theorem scanFallback_cases (cleaned : List Char) (now : ℤ) :
    (isScanError (scanFallback cleaned now) = true ↔
      fallbackRecover cleaned = none) ∧
    (∀ e, scanFallback cleaned now = .error e → e.excerpt = cleaned.take 300) := by
  cases h2 : braceSubstring cleaned with
  | none => simp [scanFallback, fallbackRecover, h2, isScanError, ScanError.excerpt]
  | some sub =>
    cases h3 : jsonParse sub with
    | none =>
      simp [scanFallback, fallbackRecover, recoverObj, h2, h3, isScanError,
        ScanError.excerpt]
    | some root2 =>
      cases hobj : jsObjLike root2 with
      | true =>
        simp [scanFallback, fallbackRecover, recoverObj, h2, h3, hobj,
          isScanError]
      | false =>
        simp [scanFallback, fallbackRecover, recoverObj, h2, h3, hobj,
          isScanError, ScanError.excerpt]

/-! ## Claim C1: synthesized provenance entries -/

/-- C1, counterexample: for the input
`{"structuredData":{"brand":"X"},"confidence":0}` — overall confidence
present and equal to `0` — the synthesized entry for `brand` carries
confidence `0.8`, not the overall confidence `0`: the `|| 0.8` fallback
fires on the falsy value `0`, not only when the confidence is unset. -/
theorem c1_counterexample :
    (scanLabel c1cexIn 0).toOption.map
        (fun r => (r.confidence, objGet r.extractedData.fieldMetadata "brand".toList)) =
      some (Json.num 0,
        some (Json.obj [(kSource, Json.str kScanned),
                        (kConfidence, Json.num (mkRat 4 5))])) ∧
    Json.num (mkRat 4 5) ≠ Json.num 0 := by
  constructor
  · rfl
  · intro h
    injection h with h2
    exact absurd h2 (by decide)

/-- C1 (amended): when the parsed object has `structuredData` (with distinct
keys) and no `fieldMetadata`, the output provenance mapping has exactly one
entry per key of `structuredData` whose value is non-null — with
source `"scanned"` and confidence equal to the overall confidence when that
is truthy, falling back to `0.8` when the overall confidence is absent,
null, or `0` — and no entry for null-valued or absent keys. -/
theorem c1_amended (content : List Char) (now : ℤ) (root : Json)
    (sd : List (List Char × Json))
    (hparse : jsonParse (cleanJsonResponse content) = some root)
    (hsd : root.get kStructuredData = some (.obj sd))
    (hnodup : (sd.map Prod.fst).Nodup)
    (hfm : root.get kFieldMetadata = none) :
    ∃ r, scanLabel content now = .ok r ∧
      (∀ k v, objGet sd k = some v → isNullJson v = false →
        objGet r.extractedData.fieldMetadata k =
          some (Json.obj [(kSource, Json.str kScanned),
            (kConfidence,
              match root.get kConfidence with
              | some cv => if jsTruthy cv then cv else Json.num (mkRat 4 5)
              | none => Json.num (mkRat 4 5))])) ∧
      (∀ k, objGet sd k = some Json.null →
        objGet r.extractedData.fieldMetadata k = none) ∧
      (∀ k, objGet sd k = none → objGet r.extractedData.fieldMetadata k = none) := by
  have hobj := jsObjLike_of_get hsd
  have hfm2 : (normalizeVision root now).extractedData.fieldMetadata =
      synthFieldMetadata sd (root.get kConfidence) := by
    simp [normalizeVision, mkExtractedData, normFM_of_absent hfm, normSD_of_get hsd]
  refine ⟨normalizeVision root now, scanLabel_ok_of_parse hparse hobj, ?_, ?_, ?_⟩
  · intro k v hv hnn
    rw [hfm2, objGet_synth_eq hnodup k, hv]
    simp [hnn, synthMetaEntry, confOr08]
  · intro k hk
    rw [hfm2, objGet_synth_eq hnodup k, hk]
    simp [isNullJson]
  · intro k hk
    rw [hfm2, objGet_synth_eq hnodup k, hk]

/-- C1, witness: on
`{"structuredData":{"brand":"X","model":null},"confidence":0.9}` the output
provenance has the synthesized entry for `brand` with confidence `0.9` and
no entry for the null-valued `model`. -/
theorem c1_witness :
    ∃ r, scanLabel c1okIn 0 = .ok r ∧
      objGet r.extractedData.fieldMetadata "brand".toList =
        some (Json.obj [(kSource, Json.str kScanned),
                        (kConfidence, Json.num (mkRat 9 10))]) ∧
      objGet r.extractedData.fieldMetadata "model".toList = none := by
  obtain ⟨r, hok, h1, h2, _⟩ :=
    c1_amended c1okIn 0 c1okRoot sdBrandModel rfl rfl (by decide) rfl
  refine ⟨r, hok, ?_, h2 "model".toList rfl⟩
  rw [h1 "brand".toList (.str "X".toList) rfl rfl]
  rfl

/-! ## Claim C2: parse-failure condition and diagnostics -/

/-- C2, counterexample: the cleaned text `5` parses as JSON, yet `scanLabel`
fails with the parse error (carrying the excerpt `5`): the normalization
block's strict-mode property assignment on the primitive root throws, the
`catch` routes it to the regex fallback, and no brace substring exists.
This contradicts the claimed "only if the cleaned text does not parse as
JSON" direction. -/
theorem c2_counterexample :
    jsonParse (cleanJsonResponse c2cexIn) = some (Json.num 5) ∧
    scanLabel c2cexIn 0 = .error (.noJsonFound "5".toList) := ⟨rfl, rfl⟩

/-- C2 (amended): `scanLabel` fails (always with a parse error) if and only
if the cleaned text does not parse as a JSON object or array (top-level
primitives and `null` take the fallback path too, since the normalization's
property write on them throws and is caught by the same handler) and the
substring from the first `{` to the last `}` also does not parse to an
object; every such error carries the first 300 characters of the cleaned
text, and no success result is produced on a parse failure. -/
theorem c2_amended (content : List Char) (now : ℤ) :
    (isScanError (scanLabel content now) = true ↔
      (recoverObj (cleanJsonResponse content) = none ∧
        fallbackRecover (cleanJsonResponse content) = none)) ∧
    (∀ e, scanLabel content now = .error e →
      e.excerpt = (cleanJsonResponse content).take 300) := by
  have hfb := scanFallback_cases (cleanJsonResponse content) now
  cases h1 : jsonParse (cleanJsonResponse content) with
  | none =>
    have hsl : scanLabel content now = scanFallback (cleanJsonResponse content) now := by
      simp [scanLabel, h1]
    rw [hsl]
    refine ⟨?_, hfb.2⟩
    rw [hfb.1]
    simp [recoverObj, h1]
  | some root =>
    cases hobj : jsObjLike root with
    | true =>
      have hsl : scanLabel content now = .ok (normalizeVision root now) :=
        scanLabel_ok_of_parse h1 hobj
      rw [hsl]
      simp [isScanError, recoverObj, h1, hobj]
    | false =>
      have hsl : scanLabel content now = scanFallback (cleanJsonResponse content) now := by
        simp [scanLabel, h1, hobj]
      rw [hsl]
      refine ⟨?_, hfb.2⟩
      rw [hfb.1]
      simp [recoverObj, h1, hobj]

/-- C2, witness: prose with no brace-delimited substring fails with the
excerpt equal to the (short) cleaned text, while prose followed by a
well-formed JSON object succeeds via the brace-extraction fallback. -/
theorem c2_witness :
    isScanError (scanLabel c2wIn 0) = true ∧
    (∀ e, scanLabel c2wIn 0 = .error e → e.excerpt = c2wIn) ∧
    isScanError (scanLabel c2wIn2 0) = false := by
  have h1 := c2_amended c2wIn 0
  have h2 := c2_amended c2wIn2 0
  refine ⟨h1.1.mpr ⟨rfl, rfl⟩, ?_, ?_⟩
  · intro e he
    exact (h1.2 e he).trans rfl
  · cases hv : isScanError (scanLabel c2wIn2 0) with
    | false => rfl
    | true =>
      obtain ⟨hrec, hfall⟩ := h2.1.mp hv
      have hs : (fallbackRecover (cleanJsonResponse c2wIn2)).isSome = true := rfl
      rw [hfall] at hs
      simp at hs

/-! ## Claim C3: provenance coverage of non-null fields -/

/-- C3, counterexample: with an explicit but incomplete `fieldMetadata`
(covering only `brand`), the non-null field `model` of the returned payload
has NO provenance entry — the code fills gaps only when `fieldMetadata` is
absent altogether. -/
theorem c3_counterexample :
    (scanLabel c3cexIn 0).toOption.map
        (fun r => (objGet r.extractedData.fields "model".toList,
                   objGet r.extractedData.fieldMetadata "model".toList)) =
      some (some (Json.str "X".toList), none) ∧
    (some (Json.str "X".toList) : Option Json) ≠ none := by
  exact ⟨rfl, by simp⟩

/-- C3 (amended): every non-null field of the returned payload has a
provenance entry when the model omitted `fieldMetadata` (the synthesized
entry, with source `"scanned"`); when the model supplied a (possibly
incomplete) `fieldMetadata` object, that object is passed through unchanged,
so fields it does not cover have no provenance entry. -/
theorem c3_amended (content : List Char) (now : ℤ) (root : Json)
    (sd : List (List Char × Json))
    (hparse : jsonParse (cleanJsonResponse content) = some root)
    (hsd : root.get kStructuredData = some (.obj sd)) :
    ∃ r, scanLabel content now = .ok r ∧
      (root.get kFieldMetadata = none →
        ∀ k v, objGet sd k = some v → isNullJson v = false →
          ∃ m, objGet r.extractedData.fieldMetadata k = some m ∧
            m.get kSource = some (.str kScanned)) ∧
      (∀ kvs, root.get kFieldMetadata = some (.obj kvs) →
        r.extractedData.fieldMetadata = kvs) := by
  have hobj := jsObjLike_of_get hsd
  refine ⟨normalizeVision root now, scanLabel_ok_of_parse hparse hobj, ?_, ?_⟩
  · intro hfmn k v hv hnn
    have hfm2 : (normalizeVision root now).extractedData.fieldMetadata =
        synthFieldMetadata sd (root.get kConfidence) := by
      simp [normalizeVision, mkExtractedData, normFM_of_absent hfmn,
        normSD_of_get hsd]
    refine ⟨synthMetaEntry (root.get kConfidence), ?_,
      synthMetaEntry_get_source _⟩
    rw [hfm2]
    exact objGet_synth_of_get hv hnn
  · intro kvs hkvs
    simp [normalizeVision, mkExtractedData, normFM_of_obj hkvs]

/-- C3, witness: on
`{"structuredData":{"brand":"X","model":null},"confidence":0.5}` (no
`fieldMetadata`), the non-null field `brand` receives a provenance entry with
source `"scanned"`. -/
theorem c3_witness :
    ∃ r m, scanLabel c3wIn 0 = .ok r ∧
      objGet r.extractedData.fieldMetadata "brand".toList = some m ∧
      m.get kSource = some (.str kScanned) := by
  obtain ⟨r, hok, hA, _⟩ := c3_amended c3wIn 0 c3wRoot sdBrandModel rfl rfl
  obtain ⟨m, hm, hsrc⟩ := hA rfl "brand".toList (.str "X".toList) rfl rfl
  exact ⟨r, m, hok, hm, hsrc⟩

/-! ## Claim C5: confidence defaults 0.6 / 0.8 -/

/-- C5: for every successfully parsed object/array root whose top-level
`confidence` is absent or null, the normalized overall confidence is `0.6`,
and when `fieldMetadata` was also absent every synthesized per-field entry
carries confidence `0.8`. -/
theorem c5_confidence_defaults (content : List Char) (now : ℤ) (root : Json)
    (hparse : jsonParse (cleanJsonResponse content) = some root)
    (hobj : jsObjLike root = true)
    (hconf : root.get kConfidence = none ∨ root.get kConfidence = some Json.null) :
    ∃ r, scanLabel content now = .ok r ∧
      r.confidence = Json.num (mkRat 3 5) ∧
      (root.get kFieldMetadata = none →
        ∀ k m, objGet r.extractedData.fieldMetadata k = some m →
          m.get kConfidence = some (Json.num (mkRat 4 5))) := by
  refine ⟨normalizeVision root now, scanLabel_ok_of_parse hparse hobj, ?_, ?_⟩
  · rcases hconf with h | h <;> simp [normalizeVision, normConfidence, h]
  · intro hfmn k m hm
    have hfm2 : (normalizeVision root now).extractedData.fieldMetadata =
        synthFieldMetadata (normStructuredData root) (root.get kConfidence) := by
      simp [normalizeVision, mkExtractedData, normFM_of_absent hfmn]
    rw [hfm2] at hm
    rw [objGet_synth_mem hm, synthMetaEntry_get_conf]
    rcases hconf with h | h <;> simp [confOr08, h, jsTruthy]

/-- C5, witness: on `{"structuredData":{"brand":"X"}}` (no confidence, no
field metadata) the overall confidence is `0.6` and the synthesized entry
for `brand` carries confidence `0.8`. -/
theorem c5_witness :
    ∃ r, scanLabel c5wIn 0 = .ok r ∧
      r.confidence = Json.num (mkRat 3 5) ∧
      (∀ m, objGet r.extractedData.fieldMetadata "brand".toList = some m →
        m.get kConfidence = some (Json.num (mkRat 4 5))) := by
  obtain ⟨r, hok, hc, hfm⟩ :=
    c5_confidence_defaults c5wIn 0 c5wRoot rfl rfl (Or.inl rfl)
  exact ⟨r, hok, hc, fun m hm => hfm rfl "brand".toList m hm⟩

/-! ## Claim C6: explicit provenance entries are preserved -/

/-- C6: any per-field provenance entry the model supplied inside an explicit
`fieldMetadata` object appears unchanged (the entire entry value, hence same
source, confidence and inference basis) in the output's provenance mapping:
a supplied `fieldMetadata` is passed through verbatim and synthesis never
replaces it. -/
theorem c6_explicit_metadata_preserved (content : List Char) (now : ℤ)
    (root : Json) (kvs : List (List Char × Json)) (k : List Char) (m : Json)
    (hparse : jsonParse (cleanJsonResponse content) = some root)
    (hfm : root.get kFieldMetadata = some (.obj kvs))
    (hget : objGet kvs k = some m) :
    ∃ r, scanLabel content now = .ok r ∧
      r.extractedData.fieldMetadata = kvs ∧
      objGet r.extractedData.fieldMetadata k = some m := by
  have hobj := jsObjLike_of_get hfm
  have hpass : (normalizeVision root now).extractedData.fieldMetadata = kvs := by
    simp [normalizeVision, mkExtractedData, normFM_of_obj hfm]
  refine ⟨normalizeVision root now, scanLabel_ok_of_parse hparse hobj, hpass, ?_⟩
  rw [hpass]
  exact hget

/-- C6, witness: the explicit `ai_inferred` entry for `brand` is returned
bit-for-bit unchanged. -/
theorem c6_witness :
    ∃ r, scanLabel c6wIn 0 = .ok r ∧
      objGet r.extractedData.fieldMetadata "brand".toList = some metaAi := by
  obtain ⟨r, hok, _, hm⟩ := c6_explicit_metadata_preserved c6wIn 0 c6wRoot
    [("brand".toList, metaAi)] "brand".toList metaAi rfl rfl rfl
  exact ⟨r, hok, hm⟩

/-! ## Claim C7: equipment analysis parse pipeline -/

/-- C7, counterexample: on prose surrounding a single well-formed JSON
object, `analyzeEquipment` fails with the processing error — it has NO
brace-extraction fallback — even though the brace-extraction fallback (as
used by `scanLabel`) recovers an object from the very same cleaned text. -/
theorem c7_counterexample :
    analyzeEquipment c7cexIn = .error .processingError ∧
    (fallbackRecover (cleanJsonResponse c7cexIn)).isSome = true := ⟨rfl, rfl⟩

/-- C7 (amended): `analyzeEquipment` applies the same code-fence stripping
(`cleanJsonResponse`) but only a single strict JSON parse with no
brace-extraction fallback: it fails exactly when the cleaned text does not
parse as JSON (or parses to `null`, whose property reads throw), and
succeeds on any other parse. -/
theorem c7_amended (content : List Char) :
    (isAnalyzeError (analyzeEquipment content) = true ↔
      (jsonParse (cleanJsonResponse content) = none ∨
        jsonParse (cleanJsonResponse content) = some Json.null)) ∧
    (∀ root, jsonParse (cleanJsonResponse content) = some root →
      root ≠ Json.null → ∃ r, analyzeEquipment content = .ok r) := by
  cases h : jsonParse (cleanJsonResponse content) with
  | none => simp [analyzeEquipment, h, isAnalyzeError]
  | some root =>
    cases hn : isNullJson root with
    | true =>
      have : root = Json.null := by
        cases root <;> simp [isNullJson] at hn ⊢
      subst this
      simp [analyzeEquipment, h, isAnalyzeError, isNullJson]
    | false =>
      have hne : root ≠ Json.null := isNullJson_eq_false.mp hn
      constructor
      · simp [analyzeEquipment, h, hn, isAnalyzeError, hne]
      · intro root2 h2 hne2
        obtain rfl : root = root2 := Option.some.inj h2
        refine ⟨{ equipmentType := root.get kEquipmentType
                  equipmentDescription := root.get kEquipmentDescription
                  failures := root.get kFailures
                  overallCondition := root.get kCondition
                  maintenanceUrgency := root.get kUrgency
                  generalRecommendations := root.get kRecommendations }, ?_⟩
        simp [analyzeEquipment, h, hn]

/-- C7, witness: a fenceless plain JSON object analyzes successfully. -/
theorem c7_witness : ∃ r, analyzeEquipment c7wIn = .ok r := by
  obtain ⟨-, hsucc⟩ := c7_amended c7wIn
  exact hsucc (.obj [(kEquipmentType, .str "RTU".toList)]) rfl
    (fun h => Json.noConfusion h)

/-! ## Claim C8: failures / recommendations defaulting -/

/-- C8, counterexample: on the parsed input `{}` (no `failures`, no
`recommendations`) the result's `failures` and `generalRecommendations` are
`undefined` — the raw absent property reads — not empty sequences. -/
theorem c8_counterexample :
    (analyzeEquipment c8cexIn).toOption.map
        (fun r => (r.failures, r.generalRecommendations)) = some (none, none) ∧
    (none : Option Json) ≠ some (Json.arr []) := ⟨rfl, by simp⟩

/-- C8 (amended): `analyzeEquipment` copies `failures` and `recommendations`
through with no defaulting: when a key is absent the corresponding result
field is `undefined` (`none`), and when present it is passed through
verbatim. -/
theorem c8_amended (content : List Char) (root : Json)
    (hparse : jsonParse (cleanJsonResponse content) = some root)
    (hnn : root ≠ Json.null) :
    ∃ r, analyzeEquipment content = .ok r ∧
      (root.get kFailures = none → r.failures = none) ∧
      (∀ v, root.get kFailures = some v → r.failures = some v) ∧
      (root.get kRecommendations = none → r.generalRecommendations = none) ∧
      (∀ v, root.get kRecommendations = some v →
        r.generalRecommendations = some v) := by
  have hn : isNullJson root = false := isNullJson_eq_false.mpr hnn
  refine ⟨{ equipmentType := root.get kEquipmentType
            equipmentDescription := root.get kEquipmentDescription
            failures := root.get kFailures
            overallCondition := root.get kCondition
            maintenanceUrgency := root.get kUrgency
            generalRecommendations := root.get kRecommendations },
    by simp [analyzeEquipment, hparse, hn], ?_, ?_, ?_, ?_⟩
  · intro h; exact h
  · intro v h; exact h
  · intro h; exact h
  · intro v h; exact h

/-- C8, witness: on `{"equipmentDescription":"rooftop unit"}` both `failures`
and `generalRecommendations` come back `undefined`. -/
theorem c8_witness :
    ∃ r, analyzeEquipment c8wIn = .ok r ∧ r.failures = none ∧
      r.generalRecommendations = none := by
  obtain ⟨r, hok, hf, _, hg, _⟩ := c8_amended c8wIn c8wRoot rfl
    (fun h => Json.noConfusion h)
  exact ⟨r, hok, hf rfl, hg rfl⟩

/-! ## Claim C9: identity placeholder, timestamps, rawText -/

/-- C9, counterexample: a `structuredData` containing an `id` key overrides
the fresh-identity placeholder through the object spread (the returned id is
`"evil"`, not `""`), and with `extractedText` absent the returned `rawText`
is `undefined`, not the empty string. -/
theorem c9_counterexample :
    (scanLabel c9cexIn 0).toOption.map
        (fun r => (r.extractedData.id, r.rawText)) =
      some (JsVal.fromJson (Json.str "evil".toList), (none : Option Json)) ∧
    JsVal.fromJson (Json.str "evil".toList) ≠ JsVal.fromJson (Json.str []) ∧
    (none : Option Json) ≠ some (Json.str []) := by
  refine ⟨rfl, ?_, by simp⟩
  intro h
  injection h with h2
  injection h2 with h3
  exact absurd h3 (by decide)

/-- C9 (amended): the returned record has the empty-string id placeholder and
`Date`-at-normalization-time timestamps exactly when `structuredData` itself
contains no `id`/`createdAt`/`updatedAt` keys; keys it does contain override
the placeholders through the spread; all `structuredData` entries are copied
through verbatim, and `rawText` is the raw `extractedText` property
(`undefined` when absent, with no empty-string defaulting). -/
theorem c9_amended (content : List Char) (now : ℤ) (root : Json)
    (sd : List (List Char × Json))
    (hparse : jsonParse (cleanJsonResponse content) = some root)
    (hsd : root.get kStructuredData = some (.obj sd)) :
    ∃ r, scanLabel content now = .ok r ∧
      r.extractedData.fields = sd ∧
      (objGet sd kId = none → r.extractedData.id = .fromJson (.str [])) ∧
      (∀ v, objGet sd kId = some v → r.extractedData.id = .fromJson v) ∧
      (objGet sd kCreatedAt = none → r.extractedData.createdAt = .date now) ∧
      (∀ v, objGet sd kCreatedAt = some v →
        r.extractedData.createdAt = .fromJson v) ∧
      (objGet sd kUpdatedAt = none → r.extractedData.updatedAt = .date now) ∧
      (∀ v, objGet sd kUpdatedAt = some v →
        r.extractedData.updatedAt = .fromJson v) ∧
      r.rawText = root.get kExtractedText := by
  have hobj := jsObjLike_of_get hsd
  have hsd2 := normSD_of_get hsd
  refine ⟨normalizeVision root now, scanLabel_ok_of_parse hparse hobj,
    by simp [normalizeVision, mkExtractedData, hsd2], ?_, ?_, ?_, ?_, ?_, ?_, rfl⟩
  · intro h; simp [normalizeVision, mkExtractedData, hsd2, h]
  · intro v h; simp [normalizeVision, mkExtractedData, hsd2, h]
  · intro h; simp [normalizeVision, mkExtractedData, hsd2, h]
  · intro v h; simp [normalizeVision, mkExtractedData, hsd2, h]
  · intro h; simp [normalizeVision, mkExtractedData, hsd2, h]
  · intro v h; simp [normalizeVision, mkExtractedData, hsd2, h]

/-- C9, witness: on a response whose `structuredData` has only `brand`, the
id placeholder is the empty string, both timestamps are the normalization
time, and `rawText` is the model's `extractedText`. -/
theorem c9_witness :
    ∃ r, scanLabel c9wIn 7 = .ok r ∧
      r.extractedData.id = .fromJson (.str []) ∧
      r.extractedData.createdAt = .date 7 ∧
      r.extractedData.updatedAt = .date 7 ∧
      r.rawText = some (Json.str "LINE1".toList) := by
  obtain ⟨r, hok, _, hid, _, hca, _, hua, _, hraw⟩ :=
    c9_amended c9wIn 7 c9wRoot sdBrand rfl rfl
  exact ⟨r, hok, hid rfl, hca rfl, hua rfl, hraw.trans rfl⟩

/-! ## Claim C10: the caller's 0.3 acceptance threshold -/

/-- C10: the label-capture caller forwards the normalized record to the
validation-form flow exactly when the scan result's numeric confidence is
strictly greater than `0.3`; at or below `0.3` it produces the
low-confidence message with the rounded percentage and forwards nothing. -/
theorem c10_threshold (r : LabelScanResult) (q : ℚ)
    (hq : r.confidence = Json.num q) :
    ((∃ d, processLabelImage (.ok r) = .forwarded d) ↔ mkRat 3 10 < q) ∧
    (mkRat 3 10 < q →
      processLabelImage (.ok r) = .forwarded r.extractedData) ∧
    (q ≤ mkRat 3 10 →
      processLabelImage (.ok r) = .lowConfidence (jsRound (mul100 q))) := by
  by_cases h : mkRat 3 10 < q
  · have hd : confAbove r.confidence (mkRat 3 10) = true := by
      simp [confAbove, hq]
      exact h
    refine ⟨?_, ?_, ?_⟩
    · simp [processLabelImage, hd, h]
    · intro _
      simp [processLabelImage, hd]
    · intro h2
      exact absurd h (not_lt.mpr h2)
  · have hd : confAbove r.confidence (mkRat 3 10) = false := by
      simp [confAbove, hq]
      exact not_lt.mp h
    refine ⟨?_, ?_, ?_⟩
    · simp [processLabelImage, hd, h]
    · intro h2
      exact absurd h2 h
    · intro _
      simp [processLabelImage, hd]
      rw [hq]
      rfl

/-- C10, witness: confidence exactly `0.3` is rejected with the 30% message,
while `0.31` is forwarded. -/
theorem c10_witness :
    processLabelImage (.ok rConf30) = .lowConfidence 30 ∧
    processLabelImage (.ok rConf31) = .forwarded rConf31.extractedData := by
  refine ⟨?_, ?_⟩
  · exact ((c10_threshold rConf30 (mkRat 3 10) rfl).2.2 (by decide)).trans rfl
  · exact (c10_threshold rConf31 (mkRat 31 100) rfl).2.1 (by decide)

end HvacScanner









